import Mathlib

/-!
Verification development for the skill-installer extension
(src/PiCrust/AgentFiles/extensions/discord-reactions.ts, third module).

The code runs on Node.js on a POSIX platform, so `path.sep` is the single
character '/'.  Strings are modelled as `List Char`; the relevant Node path
primitives (`path.resolve`, `path.join`, `path.dirname`) are modelled for
absolute first arguments, which is how every call site in the source uses
them (`skillsDir` comes from `path.resolve("skills")`, hence is absolute).
-/

/-- Strings as lists of characters. -/
abbrev Str := List Char

/-- JS regex `\w` character class (ASCII word characters). -/
def isWordChar (c : Char) : Bool :=
  (('a' ≤ c && c ≤ 'z') || ('A' ≤ c && c ≤ 'Z') || ('0' ≤ c && c ≤ '9') || c = '_')

/-- JS regex `\s` (the ASCII part; the documents in play are ASCII). -/
def isWs (c : Char) : Bool :=
  (c = ' ' || c = '\t' || c = '\n' || c = '\r' || c = '\x0b' || c = '\x0c')

/-- The platform path separator; the program runs on POSIX, so it is '/'. -/
def pathSep : Char := '/'

/-- Split a string on '/', exactly like JS `url.split("/")` and like the
segment decomposition Node path normalization performs. -/
def splitSlash : Str → List Str
  | [] => [[]]
  | c :: cs =>
      if c = '/' then [] :: splitSlash cs
      else
        match splitSlash cs with
        | [] => [[c]]
        | p :: ps => (c :: p) :: ps

/-- Join segments with a separator character (used to re-render paths). -/
def interSep (sep : Char) : List Str → Str
  | [] => []
  | [s] => s
  | s :: t :: ts => s ++ sep :: interSep sep (t :: ts)

/-- Render a list of path segments as an absolute POSIX path. -/
def renderAbs (segs : List Str) : Str := '/' :: interSep '/' segs

/-- One step of Node path normalization over a segment list: empty and "."
segments are dropped, ".." pops the previous segment (a no-op at the root,
matching absolute-path semantics), anything else is appended. -/
def normSeg (acc : List Str) (seg : Str) : List Str :=
  if seg = [] ∨ seg = ['.'] then acc
  else if seg = ['.', '.'] then acc.dropLast
  else acc ++ [seg]

/-- Fold Node path normalization over a list of segments. -/
def normFold (acc : List Str) (segs : List Str) : List Str := segs.foldl normSeg acc

/-- A well-formed (normalized) path segment: nonempty, not "." or "..",
and containing no separator. -/
def WfSeg (s : Str) : Prop := s ≠ [] ∧ s ≠ ['.'] ∧ s ≠ ['.', '.'] ∧ '/' ∉ s

/-- All segments of a list are well formed. -/
def Wf (segs : List Str) : Prop := ∀ s ∈ segs, WfSeg s

instance : DecidablePred WfSeg := fun s => by unfold WfSeg; infer_instance

instance : DecidablePred Wf := fun l => by unfold Wf; infer_instance

/-- Node `path.resolve(root, cand)` for an absolute `root`: an absolute
`cand` wins outright, otherwise `cand` is resolved against `root`; the
result is normalized (collapsing '.', '..', and redundant separators). -/
def pathResolve (root cand : Str) : Str :=
  if cand.head? = some '/' then renderAbs (normFold [] (splitSlash cand))
  else renderAbs (normFold [] (splitSlash (root ++ '/' :: cand)))

/-- Node `path.join(a, b)` for an absolute `a`: concatenate with a
separator and normalize (unlike `resolve`, an absolute `b` does not
restart the path). -/
def pathJoin (a b : Str) : Str := renderAbs (normFold [] (splitSlash (a ++ '/' :: b)))

/-- Sandbox Guard, from the source:
`const resolved = path.resolve(skillDir, relativePath);`
`return resolved.startsWith(skillDir + path.sep) || resolved === skillDir;` -/
def isSafePath (skillDir relativePath : Str) : Bool :=
  let resolved := pathResolve skillDir relativePath
  (skillDir ++ [pathSep]).isPrefixOf resolved || resolved == skillDir

/-- Segment-level view of `pathResolve` when the root is `renderAbs r`. -/
def resolveSegs (r : List Str) (cand : Str) : List Str :=
  if cand.head? = some '/' then normFold [] (splitSlash cand)
  else normFold r (splitSlash cand)

/-- The spec's notion of a candidate that normalizes to a path strictly
inside the root: the resolved segment list strictly extends the root's. -/
def strictlyInside (r : List Str) (cand : Str) : Prop :=
  r <+: resolveSegs r cand ∧ resolveSegs r cand ≠ r

instance (r : List Str) (cand : Str) : Decidable (strictlyInside r cand) := by
  unfold strictlyInside
  infer_instance


/-! ### Reference Scanner (findReferencedFiles) -/

/-- One attempt of the JS regex `\[([^\]]*)\]\(([^)]+)\)` at the current
position: succeeds only on a literal '[', a (possibly empty) label free of
']', a literal "](", a nonempty target free of ')', and a literal ')'.
Returns the captured target and the input remaining after the match
(the JS `lastIndex` position). -/
def tryLink (s : Str) : Option (Str × Str) :=
  match s with
  | '[' :: rest =>
      match rest.dropWhile (fun c => c != ']') with
      | ']' :: '(' :: r2 =>
          let tgt := r2.takeWhile (fun c => c != ')')
          match r2.dropWhile (fun c => c != ')') with
          | ')' :: r4 => if tgt = [] then none else some (tgt, r4)
          | _ => none
      | _ => none
  | _ => none

/-- The link-regex scan loop (`linkRegex.exec` repeated): on a match,
continue after it; on a failed attempt, advance one character.  Fueled by
the input length (each step consumes at least one character). -/
def linkScanF : Nat → Str → List Str
  | 0, _ => []
  | _ + 1, [] => []
  | fuel + 1, c :: cs =>
      match tryLink (c :: cs) with
      | some (tgt, rest) => tgt :: linkScanF fuel rest
      | none => linkScanF fuel cs

/-- All targets captured by the link regex over the whole document. -/
def linkScan (s : Str) : List Str := linkScanF s.length s

/-- The source's link exclusion:
`!href.startsWith("http") && !href.startsWith("#") && !href.startsWith("mailto:")`. -/
def linkExcluded (href : Str) : Bool :=
  ("http".data).isPrefixOf href || ("#".data).isPrefixOf href ||
    ("mailto:".data).isPrefixOf href

/-- Link targets that pass the exclusion and are added to the set. -/
def linkKept (content : Str) : List Str :=
  (linkScan content).filter (fun t => !linkExcluded t)

/-- Structural condition of the backtick regex `` `([^`\s]+\.\w{1,10})` ``
on the run between backticks: it must end in a '.' followed by 1..10 word
characters, with at least one character before that dot.  (A backtracking
engine can only place `\w{1,10}` on the maximal trailing word run, since
the character before any shorter word suffix is a word character, not a
dot.) -/
def tickRunOk (tok : Str) : Bool :=
  let rev := tok.reverse
  let w := rev.takeWhile isWordChar
  decide (1 ≤ w.length) && decide (w.length ≤ 10) &&
    ((rev.drop w.length).head? == some '.') && decide (w.length + 2 ≤ tok.length)

/-- One attempt of the backtick regex at the current position: a literal
backtick, then the maximal run of non-backtick non-whitespace characters,
a closing backtick, and the structural dot/extension condition. -/
def tryTick (s : Str) : Option (Str × Str) :=
  match s with
  | '`' :: rest =>
      let tok := rest.takeWhile (fun c => c != '`' && !isWs c)
      match rest.dropWhile (fun c => c != '`' && !isWs c) with
      | '`' :: r2 =>
          if tok = [] then none
          else if tickRunOk tok then some (tok, r2) else none
      | _ => none
  | _ => none

/-- The backtick-regex scan loop, fueled like `linkScanF`. -/
def tickScanF : Nat → Str → List Str
  | 0, _ => []
  | _ + 1, [] => []
  | fuel + 1, c :: cs =>
      match tryTick (c :: cs) with
      | some (tok, rest) => tok :: tickScanF fuel rest
      | none => tickScanF fuel cs

/-- All tokens matched by the backtick regex over the whole document. -/
def tickScan (s : Str) : List Str := tickScanF s.length s

/-- Substring test (JS `ref.includes("..")`). -/
def containsSub (pat : Str) : Str → Bool
  | [] => pat.isPrefixOf []
  | c :: cs => pat.isPrefixOf (c :: cs) || containsSub pat cs

/-- The source's post-match filter on backtick tokens:
`/^[\w\-\/\.]+$/.test(ref) && !ref.startsWith(".") && !ref.includes("..")`. -/
def jsFilter (tok : Str) : Bool :=
  tok.all (fun c => isWordChar c || c = '-' || c = '/' || c = '.') &&
    !(tok.head? == some '.') && !containsSub ("..".data) tok

/-- Backtick tokens that pass the filter and are added to the set. -/
def tickKept (content : Str) : List Str := (tickScan content).filter jsFilter

/-- JS `Set` insertion (keeps first occurrence, preserves insertion order). -/
def setAdd (acc : List Str) (x : Str) : List Str := if x ∈ acc then acc else acc ++ [x]

/-- `findReferencedFiles` from the source: link references first, then
backtick references, deduplicated in insertion order. -/
def findReferencedFiles (content : Str) : List Str :=
  List.foldl setAdd [] (linkKept content ++ tickKept content)

/-! ### URL and name helpers -/

/-- JS `String.prototype.trim` (ASCII whitespace). -/
def trimStr (s : Str) : Str :=
  ((s.dropWhile isWs).reverse.dropWhile isWs).reverse

/-- Index of the last '/' (JS `url.lastIndexOf("/")`, `none` for -1). -/
def lastSlashIdx : Str → Option Nat
  | [] => none
  | c :: cs =>
      match lastSlashIdx cs with
      | some i => some (i + 1)
      | none => if c = '/' then some 0 else none

/-- Index of the first occurrence of a substring (JS `indexOf`). -/
def idxOfSub (pat : Str) : Str → Option Nat
  | [] => if pat.isPrefixOf [] then some 0 else none
  | c :: cs => if pat.isPrefixOf (c :: cs) then some 0 else (idxOfSub pat cs).map (· + 1)

/-- `getBaseUrl` from the source:
`const lastSlash = url.lastIndexOf("/");`
`return lastSlash > url.indexOf("://") + 2 ? url.substring(0, lastSlash) : url;`. -/
def getBaseUrl (url : Str) : Str :=
  let lastSlash : Int := match lastSlashIdx url with | some i => (i : Int) | none => -1
  let protoIdx : Int := match idxOfSub ("://".data) url with | some i => (i : Int) | none => -1
  if protoIdx + 2 < lastSlash then url.take lastSlash.toNat else url

/-- JS `url.split("/").pop()` (the element after the last '/'). -/
def lastSeg (url : Str) : Str := (splitSlash url).getLastD []

/-- JS `filename.replace(/\.\w+$/, "")`: strip a final extension — a dot
followed by one or more word characters running to the end of the string. -/
def stripExt (s : Str) : Str :=
  let rs := s.reverse
  let w := rs.takeWhile isWordChar
  if w ≠ [] ∧ (rs.drop w.length).head? = some '.' then (rs.drop (w.length + 1)).reverse
  else s

/-- `getSkillName` from the source:
`const filename = url.split("/").pop() || "skill";`
`return filename.replace(/\.\w+$/, "");`. -/
def getSkillName (url : Str) : Str :=
  let filename := if lastSeg url = [] then ("skill".data) else lastSeg url
  stripExt filename

/-- The installer's name sanitization `.replace(/[^\w\-]/g, "-")`. -/
def sanitizeName (s : Str) : Str :=
  s.map (fun c => if isWordChar c || c = '-' then c else '-')

/-- The installer's skill-name derivation
`(params.name?.trim() || getSkillName(url)).replace(/[^\w\-]/g, "-")`
(an absent or whitespace-only override falls back to the URL). -/
def computeSkillName (url : Str) (ov : Option Str) : Str :=
  sanitizeName (match ov with
    | some n => if trimStr n = [] then getSkillName url else trimStr n
    | none => getSkillName url)

/-- The installer's primary filename `url.split("/").pop() || "skill.md"`. -/
def mainFilenameOf (url : Str) : Str :=
  if lastSeg url = [] then ("skill.md".data) else lastSeg url

/-- Node `path.dirname` (for the normalized absolute paths the installer
produces). -/
def dirnameStr (p : Str) : Str :=
  match lastSlashIdx p with
  | none => ['.']
  | some 0 => ['/']
  | some i => p.take i

/-! ### Resource Fetcher (fetchText) -/

/-- Outcome of the underlying `fetch` transport: either a received HTTP
response (any status), or a thrown transport-level error with a message. -/
inductive Transport where
  | response (ok : Bool) (text : Str) (status : Nat)
  | failure (msg : Str)

/-- The value `fetchText` returns: `{ ok, text, status }`. -/
structure FetchResult where
  ok : Bool
  text : Str
  status : Nat
deriving DecidableEq

/-- `fetchText` from the source: wraps the transport in try/catch and
always returns a value — `{ ok: response.ok, text, status: response.status }`
on a received response, and `{ ok: false, text: err.message || "Fetch
failed", status: 0 }` on a caught error.  Totality of this function is the
"never throws" guarantee. -/
def fetchText (t : Transport) : FetchResult :=
  match t with
  | .response ok text status => ⟨ok, text, status⟩
  | .failure msg => ⟨false, if msg = [] then ("Fetch failed".data) else msg, 0⟩

/-! ### Installer and inventory operations

The tools' filesystem and network effects are recorded as an event trace.
`existsSync` is modelled by the oracle `exists0` describing the initial
filesystem; `mkdirSync { recursive: true }` is idempotent, so replaying a
`mkdir` event for a directory created earlier in the same run is harmless
and the trace faithfully records which paths are touched. -/

/-- A filesystem or network effect performed by a tool invocation. -/
inductive Ev where
  | fetch (url : Str)
  | mkdir (p : Str)
  | write (p : Str)
  | rmrf (p : Str)
deriving DecidableEq

/-- State of the reference loop in `install_skill.execute`. -/
structure LoopSt where
  fetched : List Str
  failed : List Str
  events : List Ev
deriving DecidableEq

/-- Decimal rendering of a number (JS template interpolation). -/
def natStr (n : Nat) : Str := Nat.toDigits 10 n

/-- One iteration of the reference loop in `install_skill.execute`:
guard, fetch, mkdir of the destination directory if needed, write;
failures are recorded with their reason strings. -/
def refStep (oracle : Str → Transport) (exists0 : Str → Bool) (skillDir baseUrl : Str)
    (st : LoopSt) (ref : Str) : LoopSt :=
  if isSafePath skillDir ref then
    let refUrl := baseUrl ++ '/' :: ref
    let r := fetchText (oracle refUrl)
    if r.ok then
      let destPath := pathJoin skillDir ref
      let destDir := dirnameStr destPath
      { fetched := st.fetched ++ [ref]
        failed := st.failed
        events := st.events ++ [Ev.fetch refUrl] ++
          (if exists0 destDir then [] else [Ev.mkdir destDir]) ++ [Ev.write destPath] }
    else
      { fetched := st.fetched
        failed := st.failed ++ [ref ++ (" (HTTP ".data) ++ natStr r.status ++ (")".data)]
        events := st.events ++ [Ev.fetch refUrl] }
  else
    { fetched := st.fetched
      failed := st.failed ++ [ref ++ (" (blocked: path traversal)".data)]
      events := st.events }

/-- The report and trace of one `install_skill.execute` invocation. -/
structure InstallResult where
  success : Bool
  message : Str
  skillName : Str
  fetched : List Str
  failed : List Str
  events : List Ev

/-- `install_skill.execute` from the source, parameterized by the network
oracle, the initial filesystem, and the resolved skills root.  (String
quotes inside modelled messages are kept; the apostrophes of the usage
message are elided.) -/
def installSkill (oracle : Str → Transport) (exists0 : Str → Bool) (skillsDir : Str)
    (urlRaw : Str) (nameOverride : Option Str) : InstallResult :=
  let url := trimStr urlRaw
  if url = [] then
    { success := false
      message := ("Usage: install_skill(url: https://example.com/skill.md)".data)
      skillName := [], fetched := [], failed := [], events := [] }
  else if !(("http://".data).isPrefixOf url || ("https://".data).isPrefixOf url) then
    { success := false
      message := ("URL must start with http:// or https://".data)
      skillName := [], fetched := [], failed := [], events := [] }
  else
    let ev0 : List Ev := if exists0 skillsDir then [] else [Ev.mkdir skillsDir]
    let skillName := computeSkillName url nameOverride
    let baseUrl := getBaseUrl url
    let skillDir := pathJoin skillsDir skillName
    let mainResult := fetchText (oracle url)
    let ev1 := ev0 ++ [Ev.fetch url]
    if !mainResult.ok then
      { success := false
        message := ("Failed to fetch ".data) ++ url ++ (" (HTTP ".data) ++
          natStr mainResult.status ++ ("): ".data) ++ mainResult.text.take 200
        skillName := skillName, fetched := [], failed := [], events := ev1 }
    else
      let ev2 := ev1 ++ (if exists0 skillDir then [] else [Ev.mkdir skillDir])
      let mainFilename := mainFilenameOf url
      let ev3 := ev2 ++ [Ev.write (pathJoin skillDir mainFilename)]
      let refs := findReferencedFiles mainResult.text
      let final := refs.foldl (refStep oracle exists0 skillDir baseUrl)
        ⟨[mainFilename], [], ev3⟩
      let summary := ("Installed skill \"".data) ++ skillName ++ ("\" to skills/".data) ++
        skillName ++ ("/\n\nFiles fetched:\n".data) ++
        interSep '\n' (final.fetched.map (fun f => ("  - ".data) ++ f)) ++
        (if final.failed = [] then [] else ("\n\nCould not fetch:\n".data) ++
          interSep '\n' (final.failed.map (fun f => ("  - ".data) ++ f)))
      { success := true, message := summary, skillName := skillName
        fetched := final.fetched, failed := final.failed, events := final.events }

/-- The report and trace of one `uninstall_skill.execute` invocation. -/
structure UninstallResult where
  success : Bool
  message : Str
  events : List Ev

/-- `uninstall_skill.execute` from the source: trim the name, join it to
the skills root with no sanitization, fail if the directory does not
exist, otherwise remove it recursively. -/
def uninstallSkill (exists0 : Str → Bool) (skillsDir : Str) (nameRaw : Str) :
    UninstallResult :=
  let name := trimStr nameRaw
  if name = [] then
    { success := false
      message := ("Usage: uninstall_skill(name: skill-name)".data), events := [] }
  else
    let skillDir := pathJoin skillsDir name
    if !(exists0 skillDir) then
      { success := false
        message := ("Skill \"".data) ++ name ++ ("\" not found in skills/".data)
        events := [] }
    else
      { success := true
        message := ("Removed skill \"".data) ++ name ++ ("\"".data)
        events := [Ev.rmrf skillDir] }

/-! ### Theorems -/

theorem splitSlash_ne_nil (s : Str) : splitSlash s ≠ [] := by
  induction s with
  | nil => simp [splitSlash]
  | cons c cs ih =>
    simp only [splitSlash]
    split
    · simp
    · cases h : splitSlash cs <;> simp

theorem splitSlash_append (a b : Str) :
    splitSlash (a ++ '/' :: b) = splitSlash a ++ splitSlash b := by
  induction a with
  | nil => simp [splitSlash]
  | cons c cs ih =>
    by_cases hc : c = '/'
    · subst hc
      simp [splitSlash, ih]
    · simp only [List.cons_append, splitSlash, if_neg hc]
      cases h : splitSlash cs with
      | nil => exact absurd h (splitSlash_ne_nil cs)
      | cons p ps =>
        simp only [List.append_eq]
        rw [ih, h]
        simp

theorem splitSlash_noslash (s : Str) : ∀ p ∈ splitSlash s, '/' ∉ p := by
  induction s with
  | nil =>
    intro p hp
    simp [splitSlash] at hp
    simp [hp]
  | cons c cs ih =>
    intro p hp
    simp only [splitSlash] at hp
    by_cases hc : c = '/'
    · rw [if_pos hc] at hp
      rcases List.mem_cons.mp hp with h | h
      · simp [h]
      · exact ih p h
    · rw [if_neg hc] at hp
      cases h : splitSlash cs with
      | nil => exact absurd h (splitSlash_ne_nil cs)
      | cons q qs =>
        rw [h] at hp
        rcases List.mem_cons.mp hp with h2 | h2
        · subst h2
          intro hmem
          rcases List.mem_cons.mp hmem with h3 | h3
          · exact hc h3.symm
          · exact ih q (h ▸ List.mem_cons_self q qs) h3
        · exact ih p (h ▸ List.mem_cons_of_mem q h2)

theorem splitSlash_single (s : Str) (h : '/' ∉ s) : splitSlash s = [s] := by
  induction s with
  | nil => rfl
  | cons c cs ih =>
    have hc : c ≠ '/' := fun hc => h (hc ▸ List.mem_cons_self c cs)
    have hcs : '/' ∉ cs := fun hm => h (List.mem_cons_of_mem c hm)
    simp only [splitSlash, if_neg hc, ih hcs]

theorem normFold_append (acc : List Str) (l1 l2 : List Str) :
    normFold acc (l1 ++ l2) = normFold (normFold acc l1) l2 := by
  unfold normFold
  exact List.foldl_append normSeg acc l1 l2

theorem normSeg_wfSeg (acc : List Str) (s : Str) (h : WfSeg s) :
    normSeg acc s = acc ++ [s] := by
  obtain ⟨h1, h2, h3, _⟩ := h
  simp [normSeg, h1, h2, h3]

theorem normFold_push_all (acc : List Str) (segs : List Str) (h : ∀ s ∈ segs, WfSeg s) :
    normFold acc segs = acc ++ segs := by
  induction segs generalizing acc with
  | nil => simp [normFold]
  | cons s ss ih =>
    have hs : WfSeg s := h s (List.mem_cons_self s ss)
    have hss : ∀ t ∈ ss, WfSeg t := fun t ht => h t (List.mem_cons_of_mem s ht)
    show normFold (normSeg acc s) ss = acc ++ s :: ss
    rw [normSeg_wfSeg acc s hs, ih (acc ++ [s]) hss]
    simp

theorem Wf_dropLast (l : List Str) (h : Wf l) : Wf l.dropLast :=
  fun s hs => h s ((List.dropLast_sublist l).subset hs)

theorem normFold_wf (acc : List Str) (segs : List Str) (hacc : Wf acc)
    (hsegs : ∀ p ∈ segs, '/' ∉ p) : Wf (normFold acc segs) := by
  induction segs generalizing acc with
  | nil => exact hacc
  | cons s ss ih =>
    have hs : '/' ∉ s := hsegs s (List.mem_cons_self s ss)
    have hss : ∀ p ∈ ss, '/' ∉ p := fun p hp => hsegs p (List.mem_cons_of_mem s hp)
    show Wf (normFold (normSeg acc s) ss)
    refine ih (normSeg acc s) ?_ hss
    unfold normSeg
    split
    · exact hacc
    · split
      · exact Wf_dropLast acc hacc
      · rename_i hns hdd
        intro t ht
        rcases List.mem_append.mp ht with h1 | h1
        · exact hacc t h1
        · have : t = s := List.mem_singleton.mp h1
          subst this
          push_neg at hns
          exact ⟨hns.1, hns.2, hdd, hs⟩

theorem splitSlash_interSep (l : List Str) (hne : l ≠ []) (h : ∀ s ∈ l, '/' ∉ s) :
    splitSlash (interSep '/' l) = l := by
  induction l with
  | nil => exact absurd rfl hne
  | cons s ss ih =>
    cases ss with
    | nil => exact splitSlash_single s (h s (List.mem_cons_self s []))
    | cons t ts =>
      have hs : '/' ∉ s := h s (List.mem_cons_self s (t :: ts))
      have hts : ∀ p ∈ t :: ts, '/' ∉ p := fun p hp => h p (List.mem_cons_of_mem s hp)
      show splitSlash (s ++ '/' :: interSep '/' (t :: ts)) = s :: t :: ts
      rw [splitSlash_append, splitSlash_single s hs, ih (List.cons_ne_nil t ts) hts]
      simp

theorem normFold_splitSlash_renderAbs (r : List Str) (h : Wf r) :
    normFold [] (splitSlash (renderAbs r)) = r := by
  cases r with
  | nil => rfl
  | cons s ss =>
    have hns : ∀ p ∈ s :: ss, '/' ∉ p := fun p hp => (h p hp).2.2.2
    show normFold [] (splitSlash ('/' :: interSep '/' (s :: ss))) = s :: ss
    have h1 : splitSlash ('/' :: interSep '/' (s :: ss)) =
        [] :: splitSlash (interSep '/' (s :: ss)) := by
      simp [splitSlash]
    rw [h1, splitSlash_interSep (s :: ss) (List.cons_ne_nil s ss) hns]
    show normFold (normSeg [] []) (s :: ss) = s :: ss
    have h2 : normSeg [] ([] : Str) = [] := by simp [normSeg]
    rw [h2, normFold_push_all [] (s :: ss) h]
    simp

theorem resolveSegs_spec (r : List Str) (cand : Str) (h : Wf r) :
    pathResolve (renderAbs r) cand = renderAbs (resolveSegs r cand) := by
  unfold pathResolve resolveSegs
  split
  · rfl
  · rw [splitSlash_append, normFold_append, normFold_splitSlash_renderAbs r h]

theorem Wf_resolveSegs (r : List Str) (cand : Str) (h : Wf r) :
    Wf (resolveSegs r cand) := by
  unfold resolveSegs
  split
  · exact normFold_wf [] (splitSlash cand) (fun s hs => absurd hs (List.not_mem_nil s))
      (splitSlash_noslash cand)
  · exact normFold_wf r (splitSlash cand) h (splitSlash_noslash cand)

theorem isPrefixOf_eq_true_iff (a b : Str) : a.isPrefixOf b = true ↔ a <+: b :=
  List.isPrefixOf_iff_prefix

theorem consPreIff (a b : Char) (x y : Str) : (a :: x) <+: (b :: y) ↔ a = b ∧ x <+: y := by
  constructor
  · rintro ⟨u, hu⟩
    injection hu with h1 h2
    exact ⟨h1, u, h2⟩
  · rintro ⟨rfl, u, hu⟩
    exact ⟨u, by rw [List.cons_append, hu]⟩

theorem interSep_append (l1 l2 : List Str) (h1 : l1 ≠ []) (h2 : l2 ≠ []) :
    interSep '/' (l1 ++ l2) = interSep '/' l1 ++ '/' :: interSep '/' l2 := by
  induction l1 with
  | nil => exact absurd rfl h1
  | cons s ss ih =>
    cases ss with
    | nil =>
      cases l2 with
      | nil => exact absurd rfl h2
      | cons t ts => rfl
    | cons u us =>
      have e1 : interSep '/' ((s :: u :: us) ++ l2) =
          s ++ '/' :: interSep '/' ((u :: us) ++ l2) := rfl
      have e2 : interSep '/' (s :: u :: us) = s ++ '/' :: interSep '/' (u :: us) := rfl
      rw [e1, e2, ih (List.cons_ne_nil u us)]
      simp

theorem renderAbs_append_strict (r t : List Str) (hr : r ≠ []) (ht : t ≠ []) :
    renderAbs (r ++ t) = (renderAbs r ++ ['/']) ++ interSep '/' t := by
  unfold renderAbs
  rw [interSep_append r t hr ht]
  simp

theorem appendSlash_eq (s t x y : Str) (hs : '/' ∉ s) (ht : '/' ∉ t)
    (h : s ++ '/' :: x = t ++ '/' :: y) : s = t ∧ x = y := by
  induction s generalizing t with
  | nil =>
    cases t with
    | nil =>
      injection h with _ h2
      exact ⟨rfl, h2⟩
    | cons b t2 =>
      rw [List.nil_append] at h
      injection h with h1 _
      exact absurd (h1 ▸ List.mem_cons_self b t2) ht
  | cons a s2 ih =>
    cases t with
    | nil =>
      rw [List.nil_append] at h
      injection h with h1 _
      exact absurd (h1 ▸ List.mem_cons_self a s2) hs
    | cons b t2 =>
      rw [List.cons_append, List.cons_append] at h
      injection h with h1 h2
      have hs2 : '/' ∉ s2 := fun hm => hs (List.mem_cons_of_mem a hm)
      have ht2 : '/' ∉ t2 := fun hm => ht (List.mem_cons_of_mem b hm)
      obtain ⟨e1, e2⟩ := ih t2 hs2 ht2 h2
      exact ⟨by rw [h1, e1], e2⟩

theorem appendSlashPre (s t x y : Str) (hs : '/' ∉ s) (ht : '/' ∉ t)
    (h : (s ++ '/' :: x) <+: (t ++ '/' :: y)) : s = t ∧ x <+: y := by
  obtain ⟨u, hu⟩ := h
  rw [List.append_assoc, List.cons_append] at hu
  obtain ⟨e1, e2⟩ := appendSlash_eq s t (x ++ u) y hs ht hu
  exact ⟨e1, u, e2⟩

theorem interSep_inj (r c : List Str) (hr : ∀ s ∈ r, s ≠ [] ∧ '/' ∉ s)
    (hc : ∀ s ∈ c, s ≠ [] ∧ '/' ∉ s) (h : interSep '/' r = interSep '/' c) : r = c := by
  induction r generalizing c with
  | nil =>
    cases c with
    | nil => rfl
    | cons t cs =>
      cases cs with
      | nil => exact absurd h.symm (hc t (List.mem_cons_self t [])).1
      | cons u us =>
        exfalso
        have : interSep '/' (t :: u :: us) = t ++ '/' :: interSep '/' (u :: us) := rfl
        rw [this] at h
        exact List.cons_ne_nil '/' _ (List.append_eq_nil.mp h.symm).2
  | cons s rs ih =>
    cases c with
    | nil =>
      cases rs with
      | nil => exact absurd h (hr s (List.mem_cons_self s [])).1
      | cons u us =>
        exfalso
        have : interSep '/' (s :: u :: us) = s ++ '/' :: interSep '/' (u :: us) := rfl
        rw [this] at h
        exact List.cons_ne_nil '/' _ (List.append_eq_nil.mp h).2
    | cons t cs =>
      have hsp : (s ≠ [] ∧ '/' ∉ s) := hr s (List.mem_cons_self s rs)
      have htp : (t ≠ [] ∧ '/' ∉ t) := hc t (List.mem_cons_self t cs)
      cases rs with
      | nil =>
        cases cs with
        | nil =>
          have hst : s = t := h
          rw [hst]
        | cons u us =>
          exfalso
          have h2 : s = t ++ '/' :: interSep '/' (u :: us) := h
          have : '/' ∈ (s : Str) := by
            rw [h2]
            exact List.mem_append.mpr (Or.inr (List.mem_cons_self '/' _))
          exact hsp.2 this
      | cons v vs =>
        cases cs with
        | nil =>
          exfalso
          have h2 : s ++ '/' :: interSep '/' (v :: vs) = t := h
          have : '/' ∈ (t : Str) := by
            rw [← h2]
            exact List.mem_append.mpr (Or.inr (List.mem_cons_self '/' _))
          exact htp.2 this
        | cons w ws =>
          have h2 : s ++ '/' :: interSep '/' (v :: vs) = t ++ '/' :: interSep '/' (w :: ws) := h
          obtain ⟨q1, q2⟩ := appendSlash_eq s t _ _ hsp.2 htp.2 h2
          have hrs : ∀ p ∈ v :: vs, p ≠ [] ∧ '/' ∉ p :=
            fun p hp => hr p (List.mem_cons_of_mem s hp)
          have hcs : ∀ p ∈ w :: ws, p ≠ [] ∧ '/' ∉ p :=
            fun p hp => hc p (List.mem_cons_of_mem t hp)
          rw [q1, ih (w :: ws) hrs hcs q2]

theorem consPreIffG {α : Type} (a b : α) (x y : List α) :
    (a :: x) <+: (b :: y) ↔ a = b ∧ x <+: y := by
  constructor
  · rintro ⟨u, hu⟩
    injection hu with h1 h2
    exact ⟨h1, u, h2⟩
  · rintro ⟨rfl, u, hu⟩
    exact ⟨u, by rw [List.cons_append, hu]⟩

theorem interSepPre (r : List Str) (hr : ∀ s ∈ r, s ≠ [] ∧ '/' ∉ s) :
    ∀ c, (∀ s ∈ c, s ≠ [] ∧ '/' ∉ s) →
      (interSep '/' r ++ ['/']) <+: interSep '/' c → r <+: c := by
  induction r with
  | nil => exact fun c _ _ => ⟨c, rfl⟩
  | cons s rs ih =>
    intro c hc h
    cases c with
    | nil =>
      obtain ⟨u, hu⟩ := h
      exact absurd (List.append_eq_nil.mp (List.append_eq_nil.mp hu).1).2 (List.cons_ne_nil '/' [])
    | cons t cs =>
      have hsp := hr s (List.mem_cons_self s rs)
      have htp := hc t (List.mem_cons_self t cs)
      cases rs with
      | nil =>
        cases cs with
        | nil =>
          exfalso
          obtain ⟨u, hu⟩ := h
          have hu0 : (s ++ ['/']) ++ u = t := hu
          have hu2 : s ++ '/' :: u = t := by
            rw [← hu0, List.append_assoc]
            rfl
          exact htp.2 (hu2 ▸ List.mem_append.mpr (Or.inr (List.mem_cons_self '/' u)))
        | cons w ws =>
          have h2 : (s ++ '/' :: ([] : Str)) <+: (t ++ '/' :: interSep '/' (w :: ws)) := h
          obtain ⟨q1, _⟩ := appendSlashPre s t _ _ hsp.2 htp.2 h2
          subst q1
          exact ⟨w :: ws, rfl⟩
      | cons v vs =>
        cases cs with
        | nil =>
          exfalso
          obtain ⟨u, hu⟩ := h
          have hu0 : (interSep '/' (s :: v :: vs) ++ ['/']) ++ u = t := hu
          have hmem : '/' ∈ (t : Str) := by
            rw [← hu0]
            have e : interSep '/' (s :: v :: vs) = s ++ '/' :: interSep '/' (v :: vs) := rfl
            rw [e]
            exact List.mem_append.mpr (Or.inl (List.mem_append.mpr (Or.inl
              (List.mem_append.mpr (Or.inr (List.mem_cons_self '/' _))))))
          exact htp.2 hmem
        | cons w ws =>
          have e1 : interSep '/' (s :: v :: vs) ++ ['/'] =
              s ++ '/' :: (interSep '/' (v :: vs) ++ ['/']) := by
            have e : interSep '/' (s :: v :: vs) = s ++ '/' :: interSep '/' (v :: vs) := rfl
            rw [e, List.append_assoc]
            rfl
          have e2 : interSep '/' (t :: w :: ws) = t ++ '/' :: interSep '/' (w :: ws) := rfl
          rw [e1] at h
          have h2 : (s ++ '/' :: (interSep '/' (v :: vs) ++ ['/'])) <+:
              (t ++ '/' :: interSep '/' (w :: ws)) := by
            rw [e2] at h
            exact h
          obtain ⟨q1, q2⟩ := appendSlashPre s t _ _ hsp.2 htp.2 h2
          subst q1
          have hrs : ∀ p ∈ v :: vs, p ≠ [] ∧ '/' ∉ p :=
            fun p hp => hr p (List.mem_cons_of_mem s hp)
          have hcs : ∀ p ∈ w :: ws, p ≠ [] ∧ '/' ∉ p :=
            fun p hp => hc p (List.mem_cons_of_mem s hp)
          exact (consPreIffG s s (v :: vs) (w :: ws)).mpr ⟨rfl, ih hrs (w :: ws) hcs q2⟩

theorem wfParts (r : List Str) (h : Wf r) : ∀ s ∈ r, s ≠ [] ∧ '/' ∉ s :=
  fun s hs => ⟨(h s hs).1, (h s hs).2.2.2⟩

theorem renderAbs_inj (r c : List Str) (hr : Wf r) (hc : Wf c)
    (h : renderAbs r = renderAbs c) : r = c := by
  unfold renderAbs at h
  injection h with _ h2
  exact interSep_inj r c (wfParts r hr) (wfParts c hc) h2

theorem renderAbs_strictPre (r t : List Str) (hr : r ≠ []) (ht : t ≠ []) :
    (renderAbs r ++ [pathSep]) <+: renderAbs (r ++ t) := by
  rw [renderAbs_append_strict r t hr ht]
  exact ⟨interSep '/' t, by simp [pathSep]⟩

theorem isSafePath_iff_segs (r : List Str) (cand : Str) (hwf : Wf r) (hne : r ≠ []) :
    isSafePath (renderAbs r) cand = true ↔ r <+: resolveSegs r cand := by
  have hwfc := Wf_resolveSegs r cand hwf
  unfold isSafePath
  rw [resolveSegs_spec r cand hwf]
  simp only [Bool.or_eq_true, isPrefixOf_eq_true_iff, beq_iff_eq]
  constructor
  · rintro (hpre | heq)
    · have h1 : ('/' :: (interSep '/' r ++ [pathSep])) <+:
          ('/' :: interSep '/' (resolveSegs r cand)) := hpre
      have h2 := ((consPreIffG '/' '/' _ _).mp h1).2
      exact interSepPre r (wfParts r hwf) (resolveSegs r cand) (wfParts _ hwfc) h2
    · rw [renderAbs_inj _ _ hwfc hwf heq]
  · intro hpre
    by_cases heq : resolveSegs r cand = r
    · right
      rw [heq]
    · left
      obtain ⟨t, ht⟩ := hpre
      have htne : t ≠ [] := by
        rintro rfl
        rw [List.append_nil] at ht
        exact heq ht.symm
      rw [← ht]
      exact renderAbs_strictPre r t hne htne

theorem isSafePath_root_iff (cand : Str) :
    isSafePath (renderAbs []) cand = true ↔ resolveSegs [] cand = [] := by
  have hwfnil : Wf ([] : List Str) := fun s hs => absurd hs (List.not_mem_nil s)
  have hwfc := Wf_resolveSegs [] cand hwfnil
  unfold isSafePath
  rw [resolveSegs_spec [] cand hwfnil]
  simp only [Bool.or_eq_true, isPrefixOf_eq_true_iff, beq_iff_eq]
  constructor
  · rintro (hpre | heq)
    · exfalso
      have h1 : ('/' :: (['/'] : Str)) <+: ('/' :: interSep '/' (resolveSegs [] cand)) := hpre
      have h2 := ((consPreIffG '/' '/' _ _).mp h1).2
      obtain ⟨u, hu⟩ := h2
      cases hc : resolveSegs [] cand with
      | nil =>
        rw [hc] at hu
        exact List.cons_ne_nil '/' u hu
      | cons s ss =>
        rw [hc] at hu
        cases ss with
        | nil =>
          have hs : '/' ∈ s := by
            have e : (interSep '/' [s] : Str) = s := rfl
            rw [e] at hu
            rw [← hu]
            exact List.mem_cons_self '/' u
          exact (hwfc s (hc ▸ List.mem_cons_self s [])).2.2.2 hs
        | cons v vs =>
          have e : interSep '/' (s :: v :: vs) = s ++ '/' :: interSep '/' (v :: vs) := rfl
          rw [e] at hu
          cases s with
          | nil => exact (hwfc [] (hc ▸ List.mem_cons_self [] (v :: vs))).1 rfl
          | cons a s2 =>
            rw [List.cons_append] at hu
            injection hu with h3 _
            exact (hwfc (a :: s2) (hc ▸ List.mem_cons_self _ (v :: vs))).2.2.2
              (h3 ▸ List.mem_cons_self a s2)
    · exact renderAbs_inj _ _ hwfc hwfnil heq
  · intro h
    right
    rw [h]

/-- C1 (amended): the Sandbox Guard returns true exactly when the resolved
path equals the root or begins with the root followed by the separator;
for every normalized absolute root other than the filesystem root "/",
every candidate that normalizes strictly inside the root is accepted, and
any candidate resolving to the root itself is accepted. -/
theorem c1_sandbox_guard_charact (root cand : Str) :
    (isSafePath root cand = true ↔
      pathResolve root cand = root ∨ (root ++ [pathSep]) <+: pathResolve root cand)
    ∧ (∀ r : List Str, Wf r → r ≠ [] → root = renderAbs r →
        (strictlyInside r cand → isSafePath root cand = true)
        ∧ (resolveSegs r cand = r → isSafePath root cand = true)) := by
  constructor
  · unfold isSafePath
    simp only [Bool.or_eq_true, isPrefixOf_eq_true_iff, beq_iff_eq]
    tauto
  · intro r hwf hne hroot
    subst hroot
    constructor
    · intro hsi
      exact (isSafePath_iff_segs r cand hwf hne).mpr hsi.1
    · intro heq
      refine (isSafePath_iff_segs r cand hwf hne).mpr ?_
      rw [heq]

theorem c1_sandbox_guard_charact_witness :
    isSafePath ("/w/skills/demo".data) ("docs/a.md".data) = true :=
  ((c1_sandbox_guard_charact ("/w/skills/demo".data) ("docs/a.md".data)).2
    [("w".data), ("skills".data), ("demo".data)]
    (by decide) (by decide) (by decide)).1 (by decide)

/-- C1 as stated fails at the filesystem root: the candidate "a"
normalizes to "/a", strictly inside the root "/", yet the guard rejects
it, because "/" followed by the separator ("//") is never a prefix of a
normalized resolved path. -/
theorem c1_counterexample :
    renderAbs [] = ("/".data)
    ∧ Wf ([] : List Str)
    ∧ strictlyInside [] ("a".data)
    ∧ pathResolve ("/".data) ("a".data) = ("/a".data)
    ∧ isSafePath ("/".data) ("a".data) = false := by decide

/-- C2 (amended): for any normalized absolute root, every candidate whose
resolution lies outside the root — neither the root itself nor strictly
inside it, i.e. its resolved segments do not extend the root's — is
rejected by the Sandbox Guard. -/
theorem c2_outside_rejected (r : List Str) (cand : Str) (hwf : Wf r)
    (h : ¬ r <+: resolveSegs r cand) : isSafePath (renderAbs r) cand = false := by
  by_cases hne : r = []
  · subst hne
    exact absurd ⟨resolveSegs [] cand, rfl⟩ h
  · cases hsp : isSafePath (renderAbs r) cand with
    | false => rfl
    | true => exact absurd ((isSafePath_iff_segs r cand hwf hne).mp hsp) h

theorem c2_outside_rejected_witness :
    isSafePath ("/a".data) ("../x".data) = false :=
  c2_outside_rejected [("a".data)] ("../x".data) (by decide) (by decide)

/-- C2 as stated is false: "b/../c" contains a ".." segment yet resolves
back inside the root and the guard accepts it; an absolute-path override
that lands inside the root is likewise accepted. -/
theorem c2_counterexample :
    containsSub ("..".data) ("b/../c".data) = true
    ∧ isSafePath ("/a".data) ("b/../c".data) = true
    ∧ pathResolve ("/a".data) ("b/../c".data) = ("/a/c".data)
    ∧ isSafePath ("/a".data) ("/a/b".data) = true := by decide

/-- C7: fetchText is a total function of the transport outcome (the
"never throws" contract): a received response is returned as a value with
its body text, numeric status, and the transport's ok flag; a thrown
transport failure yields ok = false, status 0, and the error message (or
"Fetch failed" when the message is empty) in place of content. -/
theorem c7_fetchText_total :
    (∀ (ok : Bool) (text : Str) (status : Nat),
        fetchText (Transport.response ok text status) =
          { ok := ok, text := text, status := status })
    ∧ (∀ msg : Str,
        fetchText (Transport.failure msg) =
          { ok := false, text := if msg = [] then ("Fetch failed".data) else msg,
            status := 0 }) :=
  ⟨fun _ _ _ => rfl, fun _ => rfl⟩

/-- C8: for a nonblank name, if no directory of that (trimmed) name exists
under the skills root the remove operation fails and performs no
filesystem mutation; if the directory exists it is removed recursively
and the operation succeeds. -/
theorem c8_uninstall (exists0 : Str → Bool) (skillsDir nameRaw : Str)
    (hname : trimStr nameRaw ≠ []) :
    (exists0 (pathJoin skillsDir (trimStr nameRaw)) = false →
      (uninstallSkill exists0 skillsDir nameRaw).success = false
      ∧ (uninstallSkill exists0 skillsDir nameRaw).events = [])
    ∧ (exists0 (pathJoin skillsDir (trimStr nameRaw)) = true →
      (uninstallSkill exists0 skillsDir nameRaw).success = true
      ∧ (uninstallSkill exists0 skillsDir nameRaw).events =
          [Ev.rmrf (pathJoin skillsDir (trimStr nameRaw))]) := by
  constructor <;> intro hex <;> simp [uninstallSkill, hname, hex]

theorem c8_uninstall_witness :
    ((uninstallSkill (fun _ => false) ("/w/skills".data) ("demo".data)).success = false
      ∧ (uninstallSkill (fun _ => false) ("/w/skills".data) ("demo".data)).events = [])
    ∧ ((uninstallSkill (fun _ => true) ("/w/skills".data) ("demo".data)).success = true
      ∧ (uninstallSkill (fun _ => true) ("/w/skills".data) ("demo".data)).events =
          [Ev.rmrf (pathJoin ("/w/skills".data) (trimStr ("demo".data)))]) :=
  ⟨(c8_uninstall (fun _ => false) ("/w/skills".data) ("demo".data) (by decide)).1 rfl,
   (c8_uninstall (fun _ => true) ("/w/skills".data) ("demo".data) (by decide)).2 rfl⟩

/-- C9: the remove operation joins the caller-supplied name to the skills
root with no sanitization or containment check, so the name ".." targets
and deletes the parent of the skills root — a directory outside it. -/
theorem c9_uninstall_escape (r : List Str) (hwf : Wf r) (hne : r ≠ []) :
    ∃ name : Str, name ≠ []
      ∧ pathJoin (renderAbs r) name = renderAbs r.dropLast
      ∧ ¬ r <+: r.dropLast
      ∧ (uninstallSkill (fun _ => true) (renderAbs r) name).success = true
      ∧ (uninstallSkill (fun _ => true) (renderAbs r) name).events =
          [Ev.rmrf (renderAbs r.dropLast)] := by
  have key : ∀ acc : List Str, normSeg acc ("..".data) = acc.dropLast := by
    intro acc
    unfold normSeg
    rw [if_neg (by decide), if_pos (by decide)]
  have hjoin : pathJoin (renderAbs r) ("..".data) = renderAbs r.dropLast := by
    unfold pathJoin
    rw [splitSlash_append, normFold_append, normFold_splitSlash_renderAbs r hwf]
    have h2 : splitSlash ("..".data) = [("..".data)] := by decide
    rw [h2]
    show renderAbs (normSeg r ("..".data)) = renderAbs r.dropLast
    rw [key r]
  refine ⟨("..".data), by decide, hjoin, ?_, rfl, ?_⟩
  · intro hp
    have hle := hp.length_le
    rw [List.length_dropLast] at hle
    have hpos : 0 < r.length := List.length_pos.mpr hne
    omega
  · show [Ev.rmrf (pathJoin (renderAbs r) ("..".data))] = [Ev.rmrf (renderAbs r.dropLast)]
    rw [hjoin]

theorem c9_uninstall_escape_witness :
    ∃ name : Str, name ≠ []
      ∧ pathJoin (renderAbs [("w".data), ("skills".data)]) name =
          renderAbs ([("w".data), ("skills".data)] : List Str).dropLast
      ∧ ¬ [("w".data), ("skills".data)] <+:
          ([("w".data), ("skills".data)] : List Str).dropLast
      ∧ (uninstallSkill (fun _ => true) (renderAbs [("w".data), ("skills".data)]) name).success
          = true
      ∧ (uninstallSkill (fun _ => true) (renderAbs [("w".data), ("skills".data)]) name).events
          = [Ev.rmrf (renderAbs ([("w".data), ("skills".data)] : List Str).dropLast)] :=
  c9_uninstall_escape [("w".data), ("skills".data)] (by decide) (by decide)

theorem refStep_fetched_ne_nil (oracle : Str → Transport) (exists0 : Str → Bool)
    (skillDir baseUrl : Str) (st : LoopSt) (ref : Str) (h : st.fetched ≠ []) :
    (refStep oracle exists0 skillDir baseUrl st ref).fetched ≠ [] := by
  unfold refStep
  split
  · dsimp only
    split
    · show st.fetched ++ [ref] ≠ []
      simp
    · exact h
  · exact h

theorem refStep_fetched_head (oracle : Str → Transport) (exists0 : Str → Bool)
    (skillDir baseUrl : Str) (st : LoopSt) (ref : Str) (h : st.fetched ≠ []) :
    (refStep oracle exists0 skillDir baseUrl st ref).fetched.head? = st.fetched.head? := by
  unfold refStep
  split
  · dsimp only
    split
    · show (st.fetched ++ [ref]).head? = st.fetched.head?
      cases hf : st.fetched with
      | nil => exact absurd hf h
      | cons a l => simp
    · rfl
  · rfl

theorem refLoop_fetched_head (oracle : Str → Transport) (exists0 : Str → Bool)
    (skillDir baseUrl : Str) (refs : List Str) (st : LoopSt) (h : st.fetched ≠ []) :
    (refs.foldl (refStep oracle exists0 skillDir baseUrl) st).fetched.head? =
      st.fetched.head? := by
  induction refs generalizing st with
  | nil => rfl
  | cons ref rest ih =>
    have h2 := refStep_fetched_ne_nil oracle exists0 skillDir baseUrl st ref h
    calc (List.foldl (refStep oracle exists0 skillDir baseUrl)
            (refStep oracle exists0 skillDir baseUrl st ref) rest).fetched.head?
        = (refStep oracle exists0 skillDir baseUrl st ref).fetched.head? := ih _ h2
      _ = st.fetched.head? := refStep_fetched_head oracle exists0 skillDir baseUrl st ref h

/-- C5: whenever the primary fetch succeeds, install_skill reports success
and the primary document's filename is the first entry of the fetched
list, regardless of how the reference fetches behave. -/
theorem c5_main_first (oracle : Str → Transport) (exists0 : Str → Bool)
    (skillsDir urlRaw : Str) (ov : Option Str)
    (hurl : trimStr urlRaw ≠ [])
    (hproto : (("http://".data).isPrefixOf (trimStr urlRaw)
        || ("https://".data).isPrefixOf (trimStr urlRaw)) = true)
    (hok : (fetchText (oracle (trimStr urlRaw))).ok = true) :
    (installSkill oracle exists0 skillsDir urlRaw ov).success = true
    ∧ (installSkill oracle exists0 skillsDir urlRaw ov).fetched.head? =
        some (mainFilenameOf (trimStr urlRaw)) := by
  unfold installSkill
  rw [if_neg hurl]
  rw [if_neg (show ¬((!(("http://".data).isPrefixOf (trimStr urlRaw)
      || ("https://".data).isPrefixOf (trimStr urlRaw))) = true) by
    rw [hproto]
    decide)]
  dsimp only
  rw [if_neg (show ¬((!(fetchText (oracle (trimStr urlRaw))).ok) = true) by
    rw [hok]
    decide)]
  dsimp only
  refine ⟨rfl, ?_⟩
  rw [refLoop_fetched_head _ _ _ _ _ _ (by simp)]
  rfl

theorem c5_main_first_witness :
    (installSkill (fun _ => Transport.response true ("hello".data) 200) (fun _ => false)
        ("/w/skills".data) ("https://e.com/a/sk.md".data) none).success = true
    ∧ (installSkill (fun _ => Transport.response true ("hello".data) 200) (fun _ => false)
        ("/w/skills".data) ("https://e.com/a/sk.md".data) none).fetched.head? =
        some (mainFilenameOf (trimStr ("https://e.com/a/sk.md".data))) :=
  c5_main_first (fun _ => Transport.response true ("hello".data) 200) (fun _ => false)
    ("/w/skills".data) ("https://e.com/a/sk.md".data) none (by decide) (by decide) (by decide)

/-- C4 (amended): when the primary fetch does not succeed, install_skill
returns immediately with success false and a message carrying the HTTP
status and an at-most-200-character snippet of the error content; no
ResourceSet directory is created and no file is written — however the
shared skills root is ensured (created when absent) before the fetch, so
that one directory may be created by the invocation. -/
theorem c4_fetch_failure (oracle : Str → Transport) (exists0 : Str → Bool)
    (skillsDir urlRaw : Str) (ov : Option Str)
    (hurl : trimStr urlRaw ≠ [])
    (hproto : (("http://".data).isPrefixOf (trimStr urlRaw)
        || ("https://".data).isPrefixOf (trimStr urlRaw)) = true)
    (hfail : (fetchText (oracle (trimStr urlRaw))).ok = false) :
    (installSkill oracle exists0 skillsDir urlRaw ov).success = false
    ∧ (installSkill oracle exists0 skillsDir urlRaw ov).message =
        ("Failed to fetch ".data) ++ trimStr urlRaw ++ (" (HTTP ".data) ++
          natStr (fetchText (oracle (trimStr urlRaw))).status ++ ("): ".data) ++
          (fetchText (oracle (trimStr urlRaw))).text.take 200
    ∧ ((fetchText (oracle (trimStr urlRaw))).text.take 200).length ≤ 200
    ∧ (installSkill oracle exists0 skillsDir urlRaw ov).events =
        (if exists0 skillsDir then [] else [Ev.mkdir skillsDir]) ++
          [Ev.fetch (trimStr urlRaw)]
    ∧ (∀ p : Str, Ev.write p ∉ (installSkill oracle exists0 skillsDir urlRaw ov).events)
    ∧ (∀ p : Str, Ev.mkdir p ∈ (installSkill oracle exists0 skillsDir urlRaw ov).events →
        p = skillsDir) := by
  unfold installSkill
  rw [if_neg hurl]
  rw [if_neg (show ¬((!(("http://".data).isPrefixOf (trimStr urlRaw)
      || ("https://".data).isPrefixOf (trimStr urlRaw))) = true) by
    rw [hproto]
    decide)]
  dsimp only
  rw [if_pos (show (!(fetchText (oracle (trimStr urlRaw))).ok) = true by
    rw [hfail]
    rfl)]
  refine ⟨rfl, rfl, ?_, rfl, ?_, ?_⟩
  · exact List.length_take_le 200 _
  · intro p hp
    rw [List.mem_append] at hp
    rcases hp with h | h
    · split at h
      · exact absurd h (List.not_mem_nil _)
      · simp at h
    · simp at h
  · intro p hp
    rw [List.mem_append] at hp
    rcases hp with h | h
    · split at h
      · exact absurd h (List.not_mem_nil _)
      · simp at h
        exact h
    · simp at h

theorem c4_fetch_failure_witness :
    (installSkill (fun _ => Transport.response false ("Not Found".data) 404) (fun _ => true)
        ("/w/skills".data) ("https://e.com/a/sk.md".data) none).success = false
    ∧ (installSkill (fun _ => Transport.response false ("Not Found".data) 404) (fun _ => true)
        ("/w/skills".data) ("https://e.com/a/sk.md".data) none).events =
        [Ev.fetch (trimStr ("https://e.com/a/sk.md".data))] :=
  have h := c4_fetch_failure (fun _ => Transport.response false ("Not Found".data) 404)
    (fun _ => true) ("/w/skills".data) ("https://e.com/a/sk.md".data) none
    (by decide) (by decide) (by decide)
  ⟨h.1, h.2.2.2.1⟩

/-- C4 as stated is false about directory creation: with an initially
empty filesystem, a 404 on the primary fetch still creates the shared
skills root, because ensureSkillsDir runs before the fetch; the message
does carry "404" as claimed. -/
theorem c4_counterexample :
    (installSkill (fun _ => Transport.response false ("Not Found".data) 404) (fun _ => false)
        ("/w/skills".data) ("https://e.com/a/sk.md".data) none).success = false
    ∧ Ev.mkdir ("/w/skills".data) ∈
        (installSkill (fun _ => Transport.response false ("Not Found".data) 404)
          (fun _ => false) ("/w/skills".data) ("https://e.com/a/sk.md".data) none).events
    ∧ containsSub ("404".data)
        ((installSkill (fun _ => Transport.response false ("Not Found".data) 404)
          (fun _ => false) ("/w/skills".data) ("https://e.com/a/sk.md".data) none).message)
        = true := by decide

theorem setFold_mem (l : List Str) (acc : List Str) (x : Str) :
    x ∈ List.foldl setAdd acc l ↔ x ∈ acc ∨ x ∈ l := by
  induction l generalizing acc with
  | nil => simp
  | cons a as ih =>
    rw [List.foldl_cons, ih]
    unfold setAdd
    split
    · rename_i hmem
      constructor
      · rintro (h | h)
        · exact Or.inl h
        · exact Or.inr (List.mem_cons_of_mem a h)
      · rintro (h | h)
        · exact Or.inl h
        · rcases List.mem_cons.mp h with rfl | h2
          · exact Or.inl hmem
          · exact Or.inr h2
    · constructor
      · rintro (h | h)
        · rcases List.mem_append.mp h with h2 | h2
          · exact Or.inl h2
          · exact Or.inr (List.mem_cons.mpr (Or.inl (List.mem_singleton.mp h2)))
        · exact Or.inr (List.mem_cons_of_mem a h)
      · rintro (h | h)
        · exact Or.inl (List.mem_append.mpr (Or.inl h))
        · rcases List.mem_cons.mp h with rfl | h2
          · exact Or.inl (List.mem_append.mpr (Or.inr (List.mem_singleton.mpr rfl)))
          · exact Or.inr h2

/-- C6: on the Scenario A document the Reference Scanner returns exactly
{"guide.md"}; in general every link target kept avoids the "http", "#",
and "mailto:" prefixes, and every captured link target that avoids them
is in the reference set. -/
theorem c6_scanner_links :
    findReferencedFiles (("See [guide](guide.md) and [ext link](https://x.com/a)").data) =
      [("guide.md".data)]
    ∧ (∀ (text t : Str), t ∈ linkKept text → linkExcluded t = false)
    ∧ (∀ (text t : Str), t ∈ linkScan text → linkExcluded t = false →
        t ∈ findReferencedFiles text) := by
  refine ⟨by decide, ?_, ?_⟩
  · intro text t ht
    have h := List.mem_filter.mp ht
    simpa using h.2
  · intro text t ht hex
    unfold findReferencedFiles
    have hkept : t ∈ linkKept text :=
      List.mem_filter.mpr ⟨ht, by rw [hex]; rfl⟩
    exact (setFold_mem _ _ _).mpr (Or.inr (List.mem_append.mpr (Or.inl hkept)))

theorem c6_scanner_links_witness :
    ("guide.md".data) ∈ findReferencedFiles
      (("See [guide](guide.md) and [ext link](https://x.com/a)").data) :=
  c6_scanner_links.2.2 (("See [guide](guide.md) and [ext link](https://x.com/a)").data)
    ("guide.md".data) (by decide) (by decide)

/-- C10 (amended): when the URL's final path segment is empty the skill
name defaults to "skill" and the primary filename to "skill.md"; the
primary filename is always nonempty; the sanitized skill name consists
only of word characters and '-'; but the derived skill name is empty
exactly when the final segment is nonempty and extension-stripping erases
it (a bare extension such as ".md"), so it is not always nonempty. -/
theorem c10_naming (url : Str) (ov : Option Str) :
    (lastSeg url = [] → computeSkillName url none = ("skill".data)
      ∧ mainFilenameOf url = ("skill.md".data))
    ∧ mainFilenameOf url ≠ []
    ∧ (∀ c ∈ computeSkillName url ov, isWordChar c = true ∨ c = '-')
    ∧ (computeSkillName url none = [] ↔
        (lastSeg url ≠ [] ∧ stripExt (lastSeg url) = [])) := by
  refine ⟨?_, ?_, ?_, ?_⟩
  · intro h
    constructor
    · show sanitizeName (getSkillName url) = _
      unfold getSkillName
      rw [if_pos h]
      decide
    · unfold mainFilenameOf
      rw [if_pos h]
  · unfold mainFilenameOf
    split
    · decide
    · rename_i hne
      exact hne
  · intro c hc
    unfold computeSkillName sanitizeName at hc
    rw [List.mem_map] at hc
    obtain ⟨a, _, ha⟩ := hc
    by_cases h : (isWordChar a || a = '-') = true
    · rw [← ha, if_pos h]
      simpa using h
    · rw [← ha, if_neg h]
      exact Or.inr rfl
  · show sanitizeName (getSkillName url) = [] ↔ _
    unfold sanitizeName getSkillName
    rw [List.map_eq_nil_iff]
    split
    · rename_i h
      constructor
      · intro he
        exact absurd he (by decide)
      · rintro ⟨hne, _⟩
        exact absurd h hne
    · rename_i h
      constructor
      · intro he
        exact ⟨h, he⟩
      · rintro ⟨_, he⟩
        exact he

theorem c10_naming_witness :
    computeSkillName ("https://a.com/".data) none = ("skill".data)
    ∧ mainFilenameOf ("https://a.com/".data) = ("skill.md".data) :=
  (c10_naming ("https://a.com/".data) none).1 (by decide)

/-- C10 as stated is false: for the valid install URL "https://a.com/.md"
the final segment ".md" strips to the empty string, so the derived skill
name is empty and the skill directory degenerates to the skills root
itself. -/
theorem c10_counterexample :
    ("https://".data).isPrefixOf (trimStr ("https://a.com/.md".data)) = true
    ∧ computeSkillName (trimStr ("https://a.com/.md".data)) none = []
    ∧ pathJoin ("/w/skills".data)
        (computeSkillName (trimStr ("https://a.com/.md".data)) none) = ("/w/skills".data) := by
  decide

theorem sanitizeName_chars (s : Str) :
    ∀ c ∈ sanitizeName s, isWordChar c = true ∨ c = '-' := by
  intro c hc
  unfold sanitizeName at hc
  rw [List.mem_map] at hc
  obtain ⟨a, _, ha⟩ := hc
  by_cases h : (isWordChar a || a = '-') = true
  · rw [← ha, if_pos h]
    simpa using h
  · rw [← ha, if_neg h]
    exact Or.inr rfl

theorem computeSkillName_chars (url : Str) (ov : Option Str) :
    ∀ c ∈ computeSkillName url ov, isWordChar c = true ∨ c = '-' := by
  unfold computeSkillName
  exact sanitizeName_chars _

theorem computeSkillName_wfSeg (url : Str) (ov : Option Str)
    (h : computeSkillName url ov ≠ []) : WfSeg (computeSkillName url ov) := by
  have hch := computeSkillName_chars url ov
  have hdot : '.' ∉ computeSkillName url ov := by
    intro hm
    rcases hch '.' hm with h1 | h1
    · exact absurd h1 (by decide)
    · exact absurd h1 (by decide)
  have hsl : '/' ∉ computeSkillName url ov := by
    intro hm
    rcases hch '/' hm with h1 | h1
    · exact absurd h1 (by decide)
    · exact absurd h1 (by decide)
  refine ⟨h, ?_, ?_, hsl⟩
  · intro he
    exact hdot (he ▸ List.mem_cons_self '.' [])
  · intro he
    exact hdot (he ▸ List.mem_cons_self '.' ['.'])

theorem pathJoin_wfSeg (r : List Str) (s : Str) (hwf : Wf r) (hs : WfSeg s) :
    pathJoin (renderAbs r) s = renderAbs (r ++ [s]) := by
  unfold pathJoin
  rw [splitSlash_append, normFold_append, normFold_splitSlash_renderAbs r hwf,
    splitSlash_single s hs.2.2.2]
  show renderAbs (normSeg r s) = renderAbs (r ++ [s])
  rw [normSeg_wfSeg r s hs]

theorem normSeg_dotdot (acc : List Str) : normSeg acc ("..".data) = acc.dropLast := by
  unfold normSeg
  rw [if_neg (by decide), if_pos (by decide)]

theorem dotdotSecret_blocked (r0 : List Str) (s : Str) (hwf : Wf r0) (hs : WfSeg s)
    (hsec : s ≠ ("secret".data)) :
    isSafePath (renderAbs (r0 ++ [s])) ("../secret".data) = false := by
  have hwf2 : Wf (r0 ++ [s]) := by
    intro t ht
    rcases List.mem_append.mp ht with h1 | h1
    · exact hwf t h1
    · rw [List.mem_singleton.mp h1]
      exact hs
  have hne : r0 ++ [s] ≠ [] := by simp
  cases hsp : isSafePath (renderAbs (r0 ++ [s])) ("../secret".data) with
  | false => rfl
  | true =>
    exfalso
    have hp := (isSafePath_iff_segs (r0 ++ [s]) _ hwf2 hne).mp hsp
    have hres : resolveSegs (r0 ++ [s]) ("../secret".data) = r0 ++ [("secret".data)] := by
      unfold resolveSegs
      rw [if_neg (by decide)]
      have hsplit : splitSlash ("../secret".data) = [("..".data), ("secret".data)] := by
        decide
      rw [hsplit]
      show normSeg (normSeg (r0 ++ [s]) ("..".data)) ("secret".data) = _
      rw [normSeg_dotdot, List.dropLast_concat, normSeg_wfSeg r0 _ (by decide)]
    rw [hres] at hp
    obtain ⟨u, hu⟩ := hp
    rw [List.append_assoc] at hu
    have h2 := List.append_cancel_left hu.symm
    rw [List.cons_append] at h2
    injection h2 with h3 _
    exact hsec h3.symm

theorem lastSlashIdx_none (s : Str) (h : lastSlashIdx s = none) : '/' ∉ s := by
  induction s with
  | nil => simp
  | cons c cs ih =>
    unfold lastSlashIdx at h
    cases hcs : lastSlashIdx cs with
    | some i =>
      simp only [hcs] at h
      exact absurd h (by simp)
    | none =>
      simp only [hcs] at h
      split at h
      · exact absurd h (by simp)
      · rename_i hc
        intro hm
        rcases List.mem_cons.mp hm with h1 | h1
        · exact hc h1.symm
        · exact ih hcs h1

theorem lastSlashIdx_spec (s : Str) (i : Nat) (h : lastSlashIdx s = some i) :
    s.take i ++ '/' :: s.drop (i + 1) = s ∧ '/' ∉ s.drop (i + 1) := by
  induction s generalizing i with
  | nil => simp [lastSlashIdx] at h
  | cons c cs ih =>
    unfold lastSlashIdx at h
    cases hcs : lastSlashIdx cs with
    | some j =>
      simp only [hcs] at h
      injection h with h1
      subst h1
      obtain ⟨e1, e2⟩ := ih j hcs
      constructor
      · show (c :: cs).take (j + 1) ++ '/' :: (c :: cs).drop (j + 1 + 1) = c :: cs
        rw [List.take_succ_cons]
        have hd : (c :: cs).drop (j + 1 + 1) = cs.drop (j + 1) := rfl
        rw [hd, List.cons_append, e1]
      · show '/' ∉ (c :: cs).drop (j + 1 + 1)
        have hd : (c :: cs).drop (j + 1 + 1) = cs.drop (j + 1) := rfl
        rw [hd]
        exact e2
    | none =>
      simp only [hcs] at h
      split at h
      · rename_i hc
        injection h with h1
        subst h1
        constructor
        · show [] ++ '/' :: (c :: cs).drop 1 = c :: cs
          rw [List.nil_append, ← hc]
          rfl
        · show '/' ∉ (c :: cs).drop 1
          exact lastSlashIdx_none cs hcs
      · exact absurd h (by simp)

theorem getBaseUrl_ne_dotdot (url : Str) :
    getBaseUrl url ++ ("/../secret".data) ≠ url := by
  have hcases : getBaseUrl url = url ∨
      ∃ i, lastSlashIdx url = some i ∧ getBaseUrl url = url.take i := by
    unfold getBaseUrl
    cases hls : lastSlashIdx url with
    | none =>
      left
      cases hio : idxOfSub ("://".data) url with
      | none =>
        dsimp only
        rw [if_neg (by omega)]
      | some k =>
        dsimp only
        rw [if_neg (by omega)]
    | some i =>
      cases hio : idxOfSub ("://".data) url with
      | none =>
        dsimp only
        by_cases hc : (-1 : Int) + 2 < (i : Int)
        · right
          exact ⟨i, rfl, by rw [if_pos hc]; rfl⟩
        · left
          rw [if_neg hc]
      | some k =>
        dsimp only
        by_cases hc : (k : Int) + 2 < (i : Int)
        · right
          exact ⟨i, rfl, by rw [if_pos hc]; rfl⟩
        · left
          rw [if_neg hc]
  rcases hcases with h | ⟨i, hls, h⟩
  · rw [h]
    intro heq
    have hlen := congrArg List.length heq
    rw [List.length_append] at hlen
    have h10 : ("/../secret".data : Str).length = 10 := by decide
    rw [h10] at hlen
    omega
  · rw [h]
    intro heq
    obtain ⟨e1, e2⟩ := lastSlashIdx_spec url i hls
    have heq3 : url.take i ++ ("/../secret".data) = url.take i ++ '/' :: url.drop (i + 1) :=
      heq.trans e1.symm
    have h4 := List.append_cancel_left heq3
    have h4b : '/' :: ("../secret".data) = '/' :: url.drop (i + 1) := h4
    injection h4b with _ h5
    rw [← h5] at e2
    exact e2 (by decide)

theorem refStep_no_fetch (oracle : Str → Transport) (exists0 : Str → Bool)
    (skillDir baseUrl : Str) (u : Str)
    (hguard : ∀ ref : Str, baseUrl ++ '/' :: ref = u → isSafePath skillDir ref = false)
    (st : LoopSt) (ref : Str) (h : Ev.fetch u ∉ st.events) :
    Ev.fetch u ∉ (refStep oracle exists0 skillDir baseUrl st ref).events := by
  unfold refStep
  split
  · rename_i hsafe
    dsimp only
    split
    · intro hmem
      rw [List.mem_append] at hmem
      rcases hmem with hmem | hmem
      · rw [List.mem_append] at hmem
        rcases hmem with hmem | hmem
        · rw [List.mem_append] at hmem
          rcases hmem with hmem | hmem
          · exact h hmem
          · simp only [List.mem_singleton, Ev.fetch.injEq] at hmem
            rw [hguard ref hmem.symm] at hsafe
            exact absurd hsafe (by decide)
        · split at hmem
          · exact absurd hmem (List.not_mem_nil _)
          · simp at hmem
      · simp at hmem
    · intro hmem
      rw [List.mem_append] at hmem
      rcases hmem with hmem | hmem
      · exact h hmem
      · simp only [List.mem_singleton, Ev.fetch.injEq] at hmem
        rw [hguard ref hmem.symm] at hsafe
        exact absurd hsafe (by decide)
  · exact h

theorem refLoop_no_fetch (oracle : Str → Transport) (exists0 : Str → Bool)
    (skillDir baseUrl : Str) (u : Str)
    (hguard : ∀ ref : Str, baseUrl ++ '/' :: ref = u → isSafePath skillDir ref = false)
    (refs : List Str) :
    ∀ st : LoopSt, Ev.fetch u ∉ st.events →
      Ev.fetch u ∉ (refs.foldl (refStep oracle exists0 skillDir baseUrl) st).events := by
  induction refs with
  | nil => exact fun st h => h
  | cons ref rest ih =>
    intro st h
    rw [List.foldl_cons]
    exact ih _ (refStep_no_fetch oracle exists0 skillDir baseUrl u hguard st ref h)

theorem refStep_failed_mono (oracle : Str → Transport) (exists0 : Str → Bool)
    (skillDir baseUrl : Str) (st : LoopSt) (ref : Str) (x : Str) (h : x ∈ st.failed) :
    x ∈ (refStep oracle exists0 skillDir baseUrl st ref).failed := by
  unfold refStep
  split
  · dsimp only
    split
    · exact h
    · exact List.mem_append.mpr (Or.inl h)
  · exact List.mem_append.mpr (Or.inl h)

theorem refLoop_failed_mono (oracle : Str → Transport) (exists0 : Str → Bool)
    (skillDir baseUrl : Str) (refs : List Str) :
    ∀ (st : LoopSt) (x : Str), x ∈ st.failed →
      x ∈ (refs.foldl (refStep oracle exists0 skillDir baseUrl) st).failed := by
  induction refs with
  | nil => exact fun st x h => h
  | cons ref rest ih =>
    intro st x h
    rw [List.foldl_cons]
    exact ih _ x (refStep_failed_mono oracle exists0 skillDir baseUrl st ref x h)

theorem refLoop_blocked_recorded (oracle : Str → Transport) (exists0 : Str → Bool)
    (skillDir baseUrl : Str) (ref0 : Str)
    (hblocked : isSafePath skillDir ref0 = false) (refs : List Str) :
    ∀ st : LoopSt, ref0 ∈ refs →
      (ref0 ++ (" (blocked: path traversal)".data)) ∈
        (refs.foldl (refStep oracle exists0 skillDir baseUrl) st).failed := by
  induction refs with
  | nil =>
    intro st h
    exact absurd h (List.not_mem_nil _)
  | cons ref rest ih =>
    intro st h
    rw [List.foldl_cons]
    rcases List.mem_cons.mp h with rfl | h2
    · apply refLoop_failed_mono
      unfold refStep
      rw [if_neg (by rw [hblocked]; decide)]
      exact List.mem_append.mpr (Or.inr (List.mem_singleton.mpr rfl))
    · exact ih _ h2

theorem refStep_writes (oracle : Str → Transport) (exists0 : Str → Bool)
    (skillDir baseUrl : Str) (st : LoopSt) (ref : Str) (p : Str)
    (h : Ev.write p ∈ (refStep oracle exists0 skillDir baseUrl st ref).events) :
    Ev.write p ∈ st.events
    ∨ (isSafePath skillDir ref = true ∧ p = pathJoin skillDir ref) := by
  unfold refStep at h
  split at h
  · rename_i hsafe
    dsimp only at h
    split at h
    · rw [List.mem_append] at h
      rcases h with h | h
      · rw [List.mem_append] at h
        rcases h with h | h
        · rw [List.mem_append] at h
          rcases h with h | h
          · exact Or.inl h
          · simp at h
        · split at h
          · exact absurd h (List.not_mem_nil _)
          · simp at h
      · simp only [List.mem_singleton, Ev.write.injEq] at h
        exact Or.inr ⟨hsafe, h⟩
    · rw [List.mem_append] at h
      rcases h with h | h
      · exact Or.inl h
      · simp at h
  · exact Or.inl h

theorem refLoop_writes (oracle : Str → Transport) (exists0 : Str → Bool)
    (skillDir baseUrl : Str) (refs : List Str) :
    ∀ (st : LoopSt) (p : Str),
      Ev.write p ∈ (refs.foldl (refStep oracle exists0 skillDir baseUrl) st).events →
      Ev.write p ∈ st.events
      ∨ ∃ ref ∈ refs, isSafePath skillDir ref = true ∧ p = pathJoin skillDir ref := by
  induction refs with
  | nil => exact fun st p h => Or.inl h
  | cons ref rest ih =>
    intro st p h
    rw [List.foldl_cons] at h
    rcases ih _ p h with h2 | ⟨r, hr1, hr2⟩
    · rcases refStep_writes oracle exists0 skillDir baseUrl st ref p h2 with h3 | h3
      · exact Or.inl h3
      · exact Or.inr ⟨ref, List.mem_cons_self ref rest, h3⟩
    · exact Or.inr ⟨r, List.mem_cons_of_mem ref hr1, hr2⟩

/-- C3 (amended): the backtick rule can never contribute "../secret" (its
own filter rejects any token containing ".." or starting with '.'), and
on the Scenario B document the reference set is exactly {"config.json"}.
During an install whose skill directory is not itself named "secret", the
URL "baseUrl + /../secret" is never fetched; if "../secret" is discovered
(via a markdown link) it is recorded as blocked, and every write lands on
the primary file's path or on a guard-approved reference path.  (When the
skill directory IS named "secret", "../secret" resolves to the skill
directory itself, passes the guard, and is fetched — see the
counterexample.) -/
theorem c3_dotdot_secret (oracle : Str → Transport) (exists0 : Str → Bool)
    (skillsDir urlRaw : Str) (ov : Option Str) (r0 : List Str)
    (hurl : trimStr urlRaw ≠ [])
    (hproto : (("http://".data).isPrefixOf (trimStr urlRaw)
        || ("https://".data).isPrefixOf (trimStr urlRaw)) = true)
    (hok : (fetchText (oracle (trimStr urlRaw))).ok = true)
    (hwf0 : Wf r0) (hroot : skillsDir = renderAbs r0)
    (hname : computeSkillName (trimStr urlRaw) ov ≠ [])
    (hsec : computeSkillName (trimStr urlRaw) ov ≠ ("secret".data)) :
    (∀ tok : Str, tok ∈ tickKept (fetchText (oracle (trimStr urlRaw))).text →
        jsFilter tok = true)
    ∧ jsFilter ("../secret".data) = false
    ∧ findReferencedFiles (("Use `config.json` and `../secret` now.").data) =
        [("config.json".data)]
    ∧ Ev.fetch (getBaseUrl (trimStr urlRaw) ++ ("/../secret".data)) ∉
        (installSkill oracle exists0 skillsDir urlRaw ov).events
    ∧ (("../secret".data) ∈ findReferencedFiles (fetchText (oracle (trimStr urlRaw))).text →
        (("../secret".data) ++ (" (blocked: path traversal)".data)) ∈
          (installSkill oracle exists0 skillsDir urlRaw ov).failed)
    ∧ (∀ p : Str, Ev.write p ∈ (installSkill oracle exists0 skillsDir urlRaw ov).events →
        p = pathJoin (pathJoin skillsDir (computeSkillName (trimStr urlRaw) ov))
              (mainFilenameOf (trimStr urlRaw))
        ∨ ∃ ref ∈ findReferencedFiles (fetchText (oracle (trimStr urlRaw))).text,
            isSafePath (pathJoin skillsDir (computeSkillName (trimStr urlRaw) ov)) ref = true
            ∧ p = pathJoin (pathJoin skillsDir (computeSkillName (trimStr urlRaw) ov)) ref) := by
  have hwfs : WfSeg (computeSkillName (trimStr urlRaw) ov) :=
    computeSkillName_wfSeg (trimStr urlRaw) ov hname
  have hblocked : isSafePath (pathJoin skillsDir (computeSkillName (trimStr urlRaw) ov))
      ("../secret".data) = false := by
    rw [hroot, pathJoin_wfSeg r0 _ hwf0 hwfs]
    exact dotdotSecret_blocked r0 _ hwf0 hwfs hsec
  have hguard : ∀ ref : Str,
      getBaseUrl (trimStr urlRaw) ++ '/' :: ref =
        getBaseUrl (trimStr urlRaw) ++ ("/../secret".data) →
      isSafePath (pathJoin skillsDir (computeSkillName (trimStr urlRaw) ov)) ref = false := by
    intro ref h
    have h0 : getBaseUrl (trimStr urlRaw) ++ '/' :: ref =
        getBaseUrl (trimStr urlRaw) ++ '/' :: ("../secret".data) := h
    have h1 := List.append_cancel_left h0
    injection h1 with _ h2
    rw [h2]
    exact hblocked
  unfold installSkill
  rw [if_neg hurl]
  rw [if_neg (show ¬((!(("http://".data).isPrefixOf (trimStr urlRaw)
      || ("https://".data).isPrefixOf (trimStr urlRaw))) = true) by
    rw [hproto]
    decide)]
  dsimp only
  rw [if_neg (show ¬((!(fetchText (oracle (trimStr urlRaw))).ok) = true) by
    rw [hok]
    decide)]
  dsimp only
  refine ⟨?_, by decide, by decide, ?_, ?_, ?_⟩
  · intro tok ht
    exact (List.mem_filter.mp ht).2
  · apply refLoop_no_fetch oracle exists0 _ _ _ hguard
    intro hmem
    rw [List.mem_append] at hmem
    rcases hmem with hmem | hmem
    · rw [List.mem_append] at hmem
      rcases hmem with hmem | hmem
      · rw [List.mem_append] at hmem
        rcases hmem with hmem | hmem
        · split at hmem
          · exact absurd hmem (List.not_mem_nil _)
          · simp at hmem
        · simp only [List.mem_singleton, Ev.fetch.injEq] at hmem
          exact getBaseUrl_ne_dotdot (trimStr urlRaw) hmem
      · split at hmem
        · exact absurd hmem (List.not_mem_nil _)
        · simp at hmem
    · simp at hmem
  · intro hdisc
    exact refLoop_blocked_recorded oracle exists0 _ _ _ hblocked _ _ hdisc
  · intro p hp
    rcases refLoop_writes oracle exists0 _ _ _ _ p hp with h | ⟨ref, h1, h2, h3⟩
    · left
      rw [List.mem_append] at h
      rcases h with h | h
      · rw [List.mem_append] at h
        rcases h with h | h
        · rw [List.mem_append] at h
          rcases h with h | h
          · split at h
            · exact absurd h (List.not_mem_nil _)
            · simp at h
          · simp at h
        · split at h
          · exact absurd h (List.not_mem_nil _)
          · simp at h
      · simp only [List.mem_singleton, Ev.write.injEq] at h
        exact h
    · exact Or.inr ⟨ref, h1, h2, h3⟩

theorem c3_dotdot_secret_witness :
    Ev.fetch (getBaseUrl (trimStr (("https://h.io/a/cool.md").data)) ++ ("/../secret".data)) ∉
      (installSkill (fun _ => Transport.response true
          (("Use `config.json` and `../secret` now.").data) 200)
        (fun _ => false) ("/w/s".data) (("https://h.io/a/cool.md").data) none).events :=
  (c3_dotdot_secret (fun _ => Transport.response true
      (("Use `config.json` and `../secret` now.").data) 200)
    (fun _ => false) ("/w/s".data) (("https://h.io/a/cool.md").data) none
    [("w".data), ("s".data)]
    (by decide) (by decide) (by decide) (by decide) (by decide)
    (by decide) (by decide)).2.2.2.1

/-- C3 as stated is false in one corner: the claim conditions only on the
document containing the backtick tokens, but when the document also has a
markdown link "../secret" and the skill directory is itself named
"secret", the reference resolves exactly to the skill directory, passes
the guard, and IS fetched over the network — neither excluded by the
scanner nor rejected as blocked. -/
theorem c3_counterexample :
    containsSub (("`config.json`").data)
      (("`config.json` `../secret` [s](../secret)").data) = true
    ∧ containsSub (("`../secret`").data)
      (("`config.json` `../secret` [s](../secret)").data) = true
    ∧ Ev.fetch (("https://h.io/a/../secret").data) ∈
        (installSkill (fun _ => Transport.response true
            (("`config.json` `../secret` [s](../secret)").data) 200)
          (fun _ => false) ("/w/s".data) (("https://h.io/a/secret.md").data) none).events := by
  decide
